import Mathlib

/-
Verification of the Tab Transposer (src/main.cpp).

Shallow embedding: C++ std::string values are modelled as `List Char`.
  - `substr(pos, len)` is `(·.drop pos).take len` (both clamp the length);
  - `substr(pos)` is `·.drop pos`;
  - `find(pat, start)` is `strFind` (first match position, `none` for npos);
  - `find_last_of(c)` is `strFindLast`;
  - `replace(pos, len, repl)` is `strReplace`;
  - stream extraction (`>>`) of a token is `dropWhile`/`takeWhile` on
    whitespace, yielding `[]` when extraction fails (C++11 erases the
    target string on failure);
  - `std::tolower`/`std::toupper` in the "C" locale are `Char.toLower`/
    `Char.toUpper` (ASCII-only case mapping).
The mutually recursive pair validChord/validSlashChord is defined with a
fuel parameter (structural recursion) so that it evaluates by kernel
reduction; `fuelStable` shows the fuel `2*length+1` is irrelevant, and
`validChord_eq`/`validSlashChord_eq` recover the source's recursion
equations exactly.
-/

namespace TabTransposer

abbrev Str := List Char

def str (s : String) : Str := s.toList

/-- Whitespace characters recognized by `std::isspace` in the "C" locale. -/
def isWSpace (c : Char) : Bool :=
  c = ' ' || c = '\t' || c = '\n' || c = '\x0b' || c = '\x0c' || c = '\r'

/-- Function `formatNote` (main.cpp:136-146): extract the first whitespace-delimited
token via stream extraction, then convert it to lowercase. -/
def formatNote (s : Str) : Str :=
  ((s.dropWhile isWSpace).takeWhile (fun c => !isWSpace c)).map Char.toLower

/-- The primary note dictionary (main.cpp:45-46). -/
def notes : List Str :=
  [str "ab", str "a", str "bb", str "b", str "c", str "db", str "d",
   str "eb", str "e", str "f", str "f#", str "g"]

/-- The alternate note dictionary (main.cpp:48-49). -/
def altNotes : List Str :=
  [str "g#", str "a", str "a#", str "b", str "b#", str "c#", str "d",
   str "d#", str "e", str "e#", str "gb", str "g"]

/-- The chord-quality vocabulary (main.cpp:50-62).  The program sorts this
vector once in `main` and then only uses it through `std::binary_search`,
which on the sorted vector decides exactly membership in this list. -/
def chords : List Str :=
  [str "#5#9", str "#5b9", str "11", str "13", str "13#11",
   str "13sus", str "13sus2", str "13sus4", str "2", str "5", str "6",
   str "6/9", str "7", str "7#11", str "7#5", str "7#9", str "7b5",
   str "7b5#9", str "7b5(#9)", str "7b9", str "7sus", str "7sus2",
   str "7sus4", str "9", str "9sus", str "9sus2", str "9sus4", str "m",
   str "add9", str "aug", str "aug7#9", str "aug9", str "b5", str "b5#9",
   str "b5b9", str "dim", str "dim7", str "m", str "m(add9)",
   str "m(maj7)", str "m11", str "m13", str "m6", str "m6/9", str "m7",
   str "m7b5", str "m7b9", str "m9", str "m9(maj7)", str "m9m7",
   str "m9b5", str "m9maj7", str "mm7", str "madd9", str "maj",
   str "maj13", str "maj7", str "maj7#11", str "maj9", str "major",
   str "mb6", str "min", str "minor", str "mmaj7", str "sus",
   str "sus2", str "sus4"]

/-- Function `isAltNote` (main.cpp:125-129). -/
def isAltNote (note : Str) : Bool :=
  note == str "g#" || note == str "a#" ||
  note == str "c#" || note == str "d#" ||
  note == str "gb"

/-- Function `validNote` (main.cpp:154-173): format the note (first token,
lowercased) and test membership in either dictionary. -/
def validNote (note : Str) : Bool :=
  let e := formatNote note
  notes.contains e || altNotes.contains e

/-- Position of the first element equal to `m` (only meaningful when `m`
occurs in the list). -/
def idxOf (m : Str) : List Str → Nat
  | [] => 0
  | x :: xs => if x == m then 0 else idxOf m xs + 1

/-- Function `getNoteIndex` (main.cpp:181-189): linear search returning the first
index of the formatted note, or the fallback 0 when it is absent. -/
def getNoteIndex (chromatic : List Str) (note : Str) : Nat :=
  if chromatic.contains (formatNote note) then idxOf (formatNote note) chromatic
  else 0

/-- The `Key` class (main.cpp:77-115): name, chromatic id, table flag. -/
structure Key where
  keyName : Str
  id : Nat
  alt : Bool
deriving DecidableEq, Repr

/-- The `Key(string)` constructor (main.cpp:89-102). -/
def mkKey (keyName : Str) : Key :=
  if isAltNote keyName then
    { keyName := keyName, id := getNoteIndex altNotes keyName, alt := true }
  else
    { keyName := keyName, id := getNoteIndex notes keyName, alt := false }

/-- Function `getInterval` (main.cpp:197-201), on C++ `int` arithmetic: the raw
difference of indices, plus 12 when negative. -/
def getInterval (old newKey : Key) : Int :=
  if (newKey.id : Int) - (old.id : Int) < 0 then
    12 + ((newKey.id : Int) - (old.id : Int))
  else (newKey.id : Int) - (old.id : Int)

/-- Boolean prefix test on character lists. -/
def isPre : Str → Str → Bool
  | [], _ => true
  | _ :: _, [] => false
  | a :: as, b :: bs => a = b && isPre as bs

/-- Model of `std::string::find(pat, start)`: the smallest position `i ≥ start` at
which `pat` occurs entirely inside `s`, or `none` (npos). -/
def strFind (s pat : Str) (start : Nat) : Option Nat :=
  (List.range (s.length + 1)).find? fun i =>
    decide (start ≤ i) && isPre pat (s.drop i)

/-- Model of `std::string::find_last_of` for a single character: the largest
position holding `c`, or `none` (npos). -/
def strFindLast (s : Str) (c : Char) : Option Nat :=
  (List.range s.length).reverse.find? fun i => s.getD i ' ' == c

/-- Function `isFlatSharpFive` (main.cpp:294-303): for the first of the four
patterns that occurs anywhere in the word, the position of its first
occurrence (the out-parameter `flat5Ind`); `none` when the function
returns false. -/
def isFlatSharpFive (word : Str) : Option Nat :=
  (strFind word (str "b5#9") 0) <|> (strFind word (str "b5b9") 0) <|>
  (strFind word (str "#5b9") 0) <|> (strFind word (str "#5#9") 0)

/-- Function `getRoot` (main.cpp:209-224). -/
def getRoot (word : Str) : Str :=
  match isFlatSharpFive word with
  | some flat5Ind => if flat5Ind = 2 then word.take 2 else word.take 1
  | none =>
    if strFind word (str "b") 0 == some 1 ||
       strFind word (str "#") 0 == some 1 then
      word.take 2
    else
      word.take 1

/-- Function `transposeNote` (main.cpp:233-251).  `vector::at` is `getD` here; the
index `(i + interval) % 12` is always in bounds for the inputs the program
produces (interval ≥ 0), so the default is never returned for them. -/
def transposeNote (old : Str) (interval : Int) (alt : Bool) : Str :=
  if isAltNote old then
    if alt then
      altNotes.getD (((getNoteIndex altNotes old : Int) + interval) % 12).toNat []
    else
      notes.getD (((getNoteIndex altNotes old : Int) + interval) % 12).toNat []
  else
    if alt then
      altNotes.getD (((getNoteIndex notes old : Int) + interval) % 12).toNat []
    else
      notes.getD (((getNoteIndex notes old : Int) + interval) % 12).toNat []

/-- Model of `transform(s.begin(), ++s.begin(), s.begin(), ::toupper)`: uppercase
the first character. -/
def capFirst : Str → Str
  | [] => []
  | c :: cs => Char.toUpper c :: cs

/-- Function `validChordQuality` (main.cpp:333-338): `std::binary_search` over the
sorted quality vocabulary, i.e. membership of the formatted suffix. -/
def validChordQuality (qual : Str) : Bool :=
  chords.contains (formatNote qual)

mutual

/-- Function `validChord` (main.cpp:345-365), with explicit fuel. -/
def vcFuel : Nat → Str → Bool
  | 0, _ => false
  | fuel + 1, word =>
    if word.length = 1 then validNote word
    else if vsFuel fuel word then true
    else
      let root := getRoot word
      if validNote root then
        if root == word then true
        else validChordQuality (word.drop root.length)
      else false

/-- Function `validSlashChord` (main.cpp:310-326), with explicit fuel. -/
def vsFuel : Nat → Str → Bool
  | 0, _ => false
  | fuel + 1, word =>
    match strFind word (str "/") 0 with
    | none => false
    | some slashInd =>
      if strFindLast word '/' ≠ some slashInd then false
      else if slashInd = word.length - 1 then false
      else vcFuel fuel (word.take slashInd) && validNote (word.drop (slashInd + 1))

end

/-- Function `validChord` (main.cpp:345-365): the fuel `2*length+1` always
suffices (`fuelStable` below). -/
def validChord (word : Str) : Bool := vcFuel (2 * word.length + 1) word

/-- Function `validSlashChord` (main.cpp:310-326). -/
def validSlashChord (word : Str) : Bool := vsFuel (2 * word.length) word

/-- Function `transposeChord` (main.cpp:258-285).  Note the faithful modelling of
`chord.substr(root.size(), slashInd)`: the second argument of `substr` is
a length, so this keeps `slashInd` characters starting after the root. -/
def transposeChord (chord : Str) (oldKey newKey : Key) : Str :=
  let root := getRoot chord
  let interval := getInterval oldKey newKey
  let alt := isAltNote newKey.keyName
  let tranRoot := capFirst (transposeNote root interval alt)
  if validSlashChord chord then
    match strFind chord (str "/") 0 with
    | some slashInd =>
      let preSlQuality := (chord.drop root.length).take slashInd
      let post := chord.drop (slashInd + 1)
      let newPostSl := capFirst (transposeNote post interval alt)
      tranRoot ++ preSlQuality ++ newPostSl
    | none => tranRoot ++ chord.drop root.length
  else
    tranRoot ++ chord.drop root.length

/-- Helper for `words`: `cur` holds the (reversed) characters of the token
currently being scanned. -/
def wordsAux : Str → Str → List Str
  | cur, [] => if cur.isEmpty then [] else [cur.reverse]
  | cur, c :: cs =>
    if isWSpace c then
      if cur.isEmpty then wordsAux [] cs
      else cur.reverse :: wordsAux [] cs
    else wordsAux (c :: cur) cs

/-- Whitespace-delimited tokens of a line, as successive stream
extractions produce them. -/
def words (s : Str) : List Str := wordsAux [] s

/-- Function `isChordLine` (main.cpp:373-391): the first two extracted tokens must
both be valid chords; a failed extraction leaves the empty token. -/
def isChordLine (line : Str) : Bool :=
  validChord ((words line).getD 0 []) && validChord ((words line).getD 1 [])

/-- Model of `std::string::replace(pos, len, repl)`. -/
def strReplace (s : Str) (pos len : Nat) (repl : Str) : Str :=
  s.take pos ++ repl ++ s.drop (pos + len)

/-- One iteration of the inner token loop of `transposeTab`
(main.cpp:409-421): state is (current line text, strInd).  A failed find
(C++ would throw on `replace(npos, ...)`) is modelled as a no-op; the
search in fact never fails on reachable states. -/
def chordStep (oldKey newKey : Key) (st : Str × Nat) (word : Str) : Str × Nat :=
  if validChord word then
    match strFind st.1 word st.2 with
    | some chordInd =>
      let newChord := transposeChord word oldKey newKey
      (strReplace st.1 chordInd word.length newChord, st.2 + newChord.length)
    | none => st
  else st

/-- The per-line body of `transposeTab` (main.cpp:403-422): chord lines
are rewritten token by token, other lines pass through untouched. -/
def processLine (oldKey newKey : Key) (line : Str) : Str :=
  if isChordLine line then
    ((words line).foldl (chordStep oldKey newKey) (line, 0)).1
  else line

/-- Model of `std::getline` splitting: each line is the text up to (excluding) the
next newline; a final segment without a trailing newline is still a line,
and empty input yields no lines. -/
def getLines : Str → List Str
  | [] => []
  | c :: cs =>
    if c = '\n' then [] :: getLines cs
    else
      match getLines cs with
      | [] => [[c]]
      | l :: ls => (c :: l) :: ls

/-- Function `transposeTab` (main.cpp:398-426): process line by line, appending a
newline after every processed line. -/
def transposeTab (tab : Str) (oldKey newKey : Key) : Str :=
  ((getLines tab).map fun l => processLine oldKey newKey l ++ str "\n").flatten

/-- The four combined accidental-five-and-nine suffixes. -/
def flatSharpFivePats : List Str :=
  [str "b5#9", str "b5b9", str "#5b9", str "#5#9"]

/-- Root extraction exactly as the specification states it, in its
priority order: a flat/sharp-five suffix starting at index 2 gives a
two-character root, such a suffix starting at index 1 gives a
one-character root, otherwise an accidental character at position 1 gives
a two-character root, and otherwise the root is the first character. -/
def getRootSpecOrder (word : Str) : Str :=
  if flatSharpFivePats.any (fun p => isPre p (word.drop 2)) then word.take 2
  else if flatSharpFivePats.any (fun p => isPre p (word.drop 1)) then word.take 1
  else if word.getD 1 ' ' == 'b' || word.getD 1 ' ' == '#' then word.take 2
  else word.take 1

/-- Root extraction as the code actually behaves (the amended reading):
when one of the four suffixes occurs anywhere in the word, the recorded
position is the first occurrence of the earliest listed suffix that
occurs, and the root has two characters exactly when that position is 2;
only when no suffix occurs at all is the accidental test made, and that
test asks whether the first occurrence of the character is position 1. -/
def getRootAmend (word : Str) : Str :=
  match (flatSharpFivePats.filterMap fun p => strFind word p 0).head? with
  | some flat5Ind => if flat5Ind = 2 then word.take 2 else word.take 1
  | none =>
    if strFind word (str "b") 0 == some 1 ||
       strFind word (str "#") 0 == some 1 then
      word.take 2
    else
      word.take 1

/- ------------------------------------------------------------------ -/
/- Auxiliary lemmas about the embedding.                               -/
/- ------------------------------------------------------------------ -/

theorem isPre_nil_right (a : Char) (as : Str) : isPre (a :: as) [] = false := rfl

theorem strFind_spec {s pat : Str} {start i : Nat}
    (h : strFind s pat start = some i) :
    start ≤ i ∧ isPre pat (s.drop i) = true ∧ i ≤ s.length := by
  unfold strFind at h
  have h1 := List.find?_some h
  have h2 := List.mem_of_find?_eq_some h
  simp only [List.mem_range] at h2
  simp only [Bool.and_eq_true, decide_eq_true_eq] at h1
  exact ⟨h1.1, h1.2, by omega⟩

theorem strFind_lt {s pat : Str} {start i : Nat} (hp : pat ≠ [])
    (h : strFind s pat start = some i) : i < s.length := by
  obtain ⟨-, h2, h3⟩ := strFind_spec h
  rcases Nat.lt_or_ge i s.length with hlt | hge
  · exact hlt
  · exfalso
    rw [List.drop_eq_nil_of_le hge] at h2
    cases pat with
    | nil => exact hp rfl
    | cons a as => rw [isPre_nil_right] at h2; exact Bool.false_ne_true h2

theorem strFind_nil_slash : strFind [] (str "/") 0 = none := by decide

theorem vsFuel_nil : ∀ f, vsFuel f [] = false := by
  intro f
  cases f with
  | zero => rfl
  | succ f => simp [vsFuel, strFind_nil_slash]

/-- The fuel used in `validChord`/`validSlashChord` is irrelevant as soon
as it is large enough, so the fuel versions compute the source's mutual
recursion. -/
theorem fuelStable : ∀ f : Nat,
    (∀ (w : Str) (g : Nat), 2 * w.length + 1 ≤ f → 2 * w.length + 1 ≤ g →
      vcFuel f w = vcFuel g w) ∧
    (∀ (w : Str) (g : Nat), 2 * w.length ≤ f → 2 * w.length ≤ g →
      vsFuel f w = vsFuel g w) := by
  intro f
  induction f with
  | zero =>
    refine ⟨fun w g h1 _ => absurd h1 (by omega), fun w g h1 h2 => ?_⟩
    have hw : w = [] := by
      cases w with
      | nil => rfl
      | cons c cs => simp at h1
    subst hw
    rw [vsFuel_nil, vsFuel_nil]
  | succ f ih =>
    constructor
    · intro w g h1 h2
      obtain ⟨g, rfl⟩ : ∃ g1, g = g1 + 1 := ⟨g - 1, by omega⟩
      show vcFuel (f + 1) w = vcFuel (g + 1) w
      simp only [vcFuel]
      rw [ih.2 w g (by omega) (by omega)]
    · intro w g h1 h2
      cases w with
      | nil => rw [vsFuel_nil, vsFuel_nil]
      | cons c cs =>
        obtain ⟨g, rfl⟩ : ∃ g1, g = g1 + 1 :=
          ⟨g - 1, by simp at h2; omega⟩
        show vsFuel (f + 1) (c :: cs) = vsFuel (g + 1) (c :: cs)
        simp only [vsFuel]
        cases hf : strFind (c :: cs) (str "/") 0 with
        | none => rfl
        | some i =>
          have hi : i < (c :: cs).length := strFind_lt (by decide) hf
          have hcs : (c :: cs).length = cs.length + 1 := rfl
          have hlen : ((c :: cs).take i).length = i := by
            rw [List.length_take]
            omega
          dsimp only
          rw [ih.1 ((c :: cs).take i) g
            (by rw [hlen]; omega)
            (by rw [hlen]; omega)]

/-- The recursion equation of `validChord` (main.cpp:345-365). -/
theorem validChord_eq (word : Str) :
    validChord word =
      (if word.length = 1 then validNote word
       else if validSlashChord word then true
       else if validNote (getRoot word) then
         if getRoot word == word then true
         else validChordQuality (word.drop (getRoot word).length)
       else false) := by
  show vcFuel (2 * word.length + 1) word = _
  simp only [vcFuel]
  rfl

/-- The recursion equation of `validSlashChord` (main.cpp:310-326). -/
theorem validSlashChord_eq (word : Str) :
    validSlashChord word =
      (match strFind word (str "/") 0 with
       | none => false
       | some slashInd =>
         if strFindLast word '/' ≠ some slashInd then false
         else if slashInd = word.length - 1 then false
         else validChord (word.take slashInd) &&
              validNote (word.drop (slashInd + 1))) := by
  cases w : word with
  | nil => rw [show validSlashChord [] = false from rfl, strFind_nil_slash]
  | cons c cs =>
    show vsFuel (2 * (c :: cs).length) (c :: cs) = _
    have h2 : 2 * (c :: cs).length = (2 * cs.length + 1) + 1 := by
      simp
      omega
    rw [h2]
    simp only [vsFuel]
    cases hf : strFind (c :: cs) (str "/") 0 with
    | none => rfl
    | some i =>
      have hi : i < (c :: cs).length := strFind_lt (by decide) hf
      have hlen : ((c :: cs).take i).length = i := by
        simp [List.length_take]
        omega
      show (if _ then false else if _ then false
            else vcFuel (2 * cs.length + 1) ((c :: cs).take i) && _) = _
      rw [(fuelStable (2 * cs.length + 1)).1 ((c :: cs).take i)
        (2 * ((c :: cs).take i).length + 1)
        (by rw [hlen]; simp at hi; omega) (by omega)]
      rfl

theorem isPre_take (l : Str) : ∀ n : Nat, isPre (l.take n) l = true := by
  induction l with
  | nil => intro n; cases n <;> rfl
  | cons c cs ih =>
    intro n
    cases n with
    | zero => rfl
    | succ n =>
      show isPre (c :: cs.take n) (c :: cs) = true
      show (c = c && isPre (cs.take n) cs) = true
      rw [ih n]
      simp

theorem getRoot_take (w : Str) : getRoot w = w.take 1 ∨ getRoot w = w.take 2 := by
  unfold getRoot
  split
  · split
    · right; rfl
    · left; rfl
  · split
    · right; rfl
    · left; rfl

theorem getRoot_length_le (w : Str) : (getRoot w).length ≤ w.length := by
  rcases getRoot_take w with h | h <;> rw [h] <;>
    simp [List.length_take]

theorem getRoot_isPre (w : Str) : isPre (getRoot w) w = true := by
  rcases getRoot_take w with h | h <;> rw [h] <;> exact isPre_take w _

theorem idxOf_lt {m : Str} : ∀ {t : List Str},
    t.contains m = true → idxOf m t < t.length := by
  intro t
  induction t with
  | nil => intro h; simp [List.contains] at h
  | cons x xs ih =>
    intro h
    unfold idxOf
    split
    · simp
    · next hx =>
      have hxs : xs.contains m = true := by
        simp only [List.contains_cons, Bool.or_eq_true] at h
        rcases h with h | h
        · have hmx : m = x := by simpa using h
          exact absurd hmx.symm (by simpa using hx)
        · exact h
      have := ih hxs
      simp
      omega

theorem getNoteIndex_lt {t : List Str} (ht : t.length = 12) (s : Str) :
    getNoteIndex t s < 12 := by
  unfold getNoteIndex
  split
  · next h =>
    have := idxOf_lt h
    omega
  · omega

theorem getNoteIndex_absent {t : List Str} {s : Str}
    (h : t.contains (formatNote s) = false) : getNoteIndex t s = 0 := by
  unfold getNoteIndex
  rw [h]
  rfl

theorem mkKey_id_lt (s : Str) : (mkKey s).id < 12 := by
  unfold mkKey
  split <;> exact getNoteIndex_lt (by decide) s

theorem getRoot_len1 {w : Str} (h : w.length = 1) : getRoot w = w := by
  rcases getRoot_take w with hr | hr <;> rw [hr] <;>
    exact List.take_of_length_le (by omega)

theorem validSlashChord_len1 {w : Str} (h : w.length = 1) :
    validSlashChord w = false := by
  match w, h with
  | [c], _ =>
    rw [validSlashChord_eq]
    cases hf : strFind [c] (str "/") 0 with
    | none => rfl
    | some i =>
      have hi : i < 1 := strFind_lt (by decide) hf
      have hz : i = 0 := by omega
      subst hz
      simp

theorem boolTotal (b : Bool) : b = true ∨ b = false := by
  cases b <;> simp

theorem isFlatSharpFive_eq_filterMap (w : Str) :
    isFlatSharpFive w =
      (flatSharpFivePats.filterMap fun p => strFind w p 0).head? := by
  unfold isFlatSharpFive flatSharpFivePats
  cases h1 : strFind w (str "b5#9") 0 <;>
  cases h2 : strFind w (str "b5b9") 0 <;>
  cases h3 : strFind w (str "#5b9") 0 <;>
  cases h4 : strFind w (str "#5#9") 0 <;>
  simp [h1, h2, h3, h4, HOrElse.hOrElse, OrElse.orElse, Option.orElse]

theorem wordsAux_no_ws :
    ∀ (s cur : Str), (∀ c ∈ cur, isWSpace c = false) →
      ∀ w ∈ wordsAux cur s, ∀ c ∈ w, isWSpace c = false := by
  intro s
  induction s with
  | nil =>
    intro cur hcur w hw c hc
    unfold wordsAux at hw
    split at hw
    · simp at hw
    · simp at hw
      subst hw
      exact hcur c (by simpa using hc)
  | cons a as ih =>
    intro cur hcur w hw c hc
    unfold wordsAux at hw
    split at hw
    · split at hw
      · exact ih [] (by simp) w hw c hc
      · rcases List.mem_cons.1 hw with rfl | hw2
        · exact hcur c (by simpa using hc)
        · exact ih [] (by simp) w hw2 c hc
    · next ha =>
      refine ih (a :: cur) ?_ w hw c hc
      intro x hx
      rcases List.mem_cons.1 hx with rfl | hx2
      · simpa using ha
      · exact hcur x hx2

theorem words_no_nl (l : Str) : ∀ w ∈ words l, ('\n' : Char) ∉ w := by
  intro w hw hnc
  have h := wordsAux_no_ws l [] (by simp) w hw '\n' hnc
  exact absurd h (by decide)

theorem getLines_no_nl : ∀ (s : Str), ∀ l ∈ getLines s, ('\n' : Char) ∉ l := by
  intro s
  induction s with
  | nil => intro l hl; simp [getLines] at hl
  | cons c cs ih =>
    intro l hl
    unfold getLines at hl
    by_cases hc : c = '\n'
    · rw [if_pos hc] at hl
      rcases List.mem_cons.1 hl with rfl | hl2
      · simp
      · exact ih l hl2
    · rw [if_neg hc] at hl
      cases hgl : getLines cs with
      | nil =>
        rw [hgl] at hl
        simp at hl
        subst hl
        intro hmem
        rcases List.mem_cons.1 hmem with h1 | h2
        · exact hc h1.symm
        · simp at h2
      | cons t ts =>
        rw [hgl] at hl
        rcases List.mem_cons.1 hl with rfl | hl2
        · intro hmem
          rcases List.mem_cons.1 hmem with h1 | h2
          · exact hc h1.symm
          · exact ih t (by rw [hgl]; exact List.mem_cons_self t ts) h2
        · exact ih l (by rw [hgl]; exact List.mem_cons_of_mem t hl2)

theorem getLines_append : ∀ (l rest : Str), ('\n' : Char) ∉ l →
    getLines (l ++ '\n' :: rest) = l :: getLines rest := by
  intro l
  induction l with
  | nil => intro rest _; simp [getLines]
  | cons c cs ih =>
    intro rest h
    have hc : ¬(c = '\n') := fun hcc => h (by simp [hcc])
    show getLines (c :: (cs ++ '\n' :: rest)) = (c :: cs) :: getLines rest
    conv_lhs => rw [getLines]
    rw [if_neg hc, ih rest (fun hm => h (List.mem_cons_of_mem c hm))]

theorem getLines_flatten : ∀ (ls : List Str), (∀ l ∈ ls, ('\n' : Char) ∉ l) →
    getLines ((ls.map fun l => l ++ str "\n").flatten) = ls := by
  intro ls
  induction ls with
  | nil => intro _; rfl
  | cons l ls ih =>
    intro h
    show getLines (((l ++ str "\n") :: ls.map fun x => x ++ str "\n").flatten)
        = l :: ls
    rw [List.flatten_cons]
    have hassoc : (l ++ str "\n") ++ (ls.map fun x => x ++ str "\n").flatten
        = l ++ '\n' :: (ls.map fun x => x ++ str "\n").flatten := by
      rw [List.append_assoc]
      rfl
    rw [hassoc, getLines_append _ _ (h l (List.mem_cons_self l ls)),
      ih (fun x hx => h x (List.mem_cons_of_mem l hx))]

theorem capFirst_getD_no_nl :
    ∀ (t : List Str), (∀ e ∈ t, ('\n' : Char) ∉ capFirst e) →
      ∀ k : Nat, ('\n' : Char) ∉ capFirst (t.getD k []) := by
  intro t
  induction t with
  | nil =>
    intro _ k
    cases k <;> simp [List.getD, capFirst]
  | cons e es ih =>
    intro h k
    cases k with
    | zero => simpa using h e (List.mem_cons_self e es)
    | succ k => simpa using ih (fun x hx => h x (List.mem_cons_of_mem e hx)) k

theorem transposeNote_cap_no_nl (old : Str) (i : Int) (alt : Bool) :
    ('\n' : Char) ∉ capFirst (transposeNote old i alt) := by
  unfold transposeNote
  split_ifs <;> apply capFirst_getD_no_nl <;> decide

theorem transposeChord_no_nl {w : Str} (hw : ('\n' : Char) ∉ w) (k1 k2 : Key) :
    ('\n' : Char) ∉ transposeChord w k1 k2 := by
  intro hmem
  simp only [transposeChord] at hmem
  split at hmem
  · split at hmem
    · simp only [List.mem_append] at hmem
      rcases hmem with (h1 | h2) | h3
      · exact transposeNote_cap_no_nl _ _ _ h1
      · exact hw (List.drop_subset _ _ (List.take_subset _ _ h2))
      · exact transposeNote_cap_no_nl _ _ _ h3
    · simp only [List.mem_append] at hmem
      rcases hmem with h1 | h2
      · exact transposeNote_cap_no_nl _ _ _ h1
      · exact hw (List.drop_subset _ _ h2)
  · simp only [List.mem_append] at hmem
    rcases hmem with h1 | h2
    · exact transposeNote_cap_no_nl _ _ _ h1
    · exact hw (List.drop_subset _ _ h2)

theorem foldl_chordStep_no_nl (k1 k2 : Key) :
    ∀ (ws : List Str) (st : Str × Nat),
      (∀ w ∈ ws, ('\n' : Char) ∉ w) → ('\n' : Char) ∉ st.1 →
      ('\n' : Char) ∉ (ws.foldl (chordStep k1 k2) st).1 := by
  intro ws
  induction ws with
  | nil => intro st _ h; simpa using h
  | cons w ws ih =>
    intro st hws hst
    rw [List.foldl_cons]
    apply ih _ (fun x hx => hws x (List.mem_cons_of_mem w hx))
    show ('\n' : Char) ∉ (chordStep k1 k2 st w).1
    unfold chordStep
    split
    · split
      · intro hmem
        simp only [strReplace, List.mem_append] at hmem
        rcases hmem with (h1 | h2) | h3
        · exact hst (List.take_subset _ _ h1)
        · exact transposeChord_no_nl (hws w (List.mem_cons_self w ws)) k1 k2 h2
        · exact hst (List.drop_subset _ _ h3)
      · exact hst
    · exact hst

theorem processLine_no_nl (k1 k2 : Key) {l : Str} (h : ('\n' : Char) ∉ l) :
    ('\n' : Char) ∉ processLine k1 k2 l := by
  unfold processLine
  split
  · exact foldl_chordStep_no_nl k1 k2 (words l) (l, 0)
      (fun w hw => words_no_nl l w hw) h
  · exact h

/- ------------------------------------------------------------------ -/
/- The claims.                                                         -/
/- ------------------------------------------------------------------ -/

/-- C1, counterexample: the claim's priority order fails on the token
"Dbm7b5#9".  The suffix "b5#9" occurs at index 4 (neither index 1 nor
index 2), and the accidental 'b' is at position 1, so the claim's order
yields the two-character root "Db"; but `isFlatSharpFive` reports the
suffix found anywhere in the token and `getRoot` then skips the
accidental test, returning the one-character root "D". -/
theorem c1_getRoot_priority_counterexample :
    getRoot (str "Dbm7b5#9") = str "D" ∧
    getRootSpecOrder (str "Dbm7b5#9") = str "Db" ∧
    getRoot (str "Dbm7b5#9") ≠ getRootSpecOrder (str "Dbm7b5#9") :=
  ⟨by decide, by decide, by decide⟩

/-- C1, amended: `getRoot` consults `isFlatSharpFive`, which reports the
first occurrence (anywhere in the token) of the earliest listed of the
four suffixes; the root is the first two characters exactly when that
position is 2 and the first character for any other position, and only
when no suffix occurs at all does `getRoot` take two characters when the
first occurrence of 'b' or of '#' in the whole token is position 1,
otherwise one character. -/
theorem c1_getRoot_priority_amended (w : Str) : getRoot w = getRootAmend w := by
  unfold getRoot getRootAmend
  rw [isFlatSharpFive_eq_filterMap]

/-- C2: the slash-chord reassembly is not "root + verbatim quality +
transposed bass".  For the valid slash chord "Bb/F" transposed from key a
to key c, `chord.substr(root.size(), slashInd)` keeps `slashInd`
characters (a length, not an end position), so the original bass letter
survives and the transposed bass is appended after it: the program
produces "Db/FAb" instead of "Db/Ab", duplicating the bass character.
This reproduces the bug listed in the program's own known-issues comment
(main.cpp:25-26). -/
theorem c2_slash_reassembly_bug :
    validSlashChord (str "Bb/F") = true ∧
    transposeChord (str "Bb/F") (mkKey (str "a")) (mkKey (str "c")) =
      str "Db/FAb" :=
  ⟨by decide, by decide⟩

/-- C3, counterexample: "bb" is a valid note name (it is in the primary
dictionary), yet `validChord` rejects it: the token has length 2, so the
single-letter branch is skipped, and `getRoot "bb"` is "b" because the
first occurrence of 'b' is position 0, not 1; the remainder "b" is not a
chord quality. -/
theorem c3_validChord_iff_counterexample :
    validNote (str "bb") = true ∧ validChord (str "bb") = false :=
  ⟨by decide, by decide⟩

/-- C3, amended: a token is a valid chord iff it is a one-character valid
note, or a valid slash chord, or its root (per getRoot) is a valid note
and the remainder after the root is empty or in the quality vocabulary.
(The first disjunct requires length exactly 1: a two-character valid note
name is accepted only via the root path, which fails for "bb".) -/
theorem c3_validChord_iff_amended (w : Str) :
    validChord w = true ↔
      ((w.length = 1 ∧ validNote w = true) ∨ validSlashChord w = true ∨
       (validNote (getRoot w) = true ∧
        (getRoot w = w ∨ validChordQuality (w.drop (getRoot w).length) = true))) := by
  rw [validChord_eq]
  by_cases h1 : w.length = 1
  · have hs := validSlashChord_len1 h1
    have hr : getRoot w = w := getRoot_len1 h1
    simp [h1, hs, hr]
  · simp only [h1, if_false]
    cases hs : validSlashChord w with
    | true => simp [hs]
    | false =>
      simp only [Bool.false_eq_true, if_false]
      split_ifs with hv he <;> simp_all [beq_iff_eq]

/-- C4: the cursor bug.  On the chord line "  C Ab" (two leading spaces)
transposed from key c to key ab, the token "C" is replaced at position 2
by "Ab", but the cursor is advanced only BY the replacement's length
(`strInd += newChord.size()`), to 2, not PAST the replacement's end, 4.
The next token "Ab" is then found at position 2 — inside the text just
inserted — so the program rewrites the inserted "Ab" into "E" (a double
transposition of the original "C") and never touches the real "Ab"
token, producing "  E Ab" instead of the "  Ab E" which advancing the
cursor past the replacement's end would give. -/
theorem c4_cursor_bug :
    isChordLine (str "  C Ab") = true ∧
    validChord (str "C") = true ∧ validChord (str "Ab") = true ∧
    transposeChord (str "C") (mkKey (str "c")) (mkKey (str "ab")) = str "Ab" ∧
    transposeChord (str "Ab") (mkKey (str "c")) (mkKey (str "ab")) = str "E" ∧
    transposeTab (str "  C Ab\n") (mkKey (str "c")) (mkKey (str "ab")) =
      str "  E Ab\n" :=
  ⟨by decide, by decide, by decide, by decide, by decide, by decide⟩

/-- C7: frame and structure properties of transposeTab.  The output's
lines are exactly the processed input lines; a line with fewer than two
tokens, or whose first or second token is not a valid chord, passes
through byte-identical; the output is the concatenation of its own lines
each followed by a newline (so every output line, the last included, has
a trailing newline); and the line count is preserved. -/
theorem c7_frame (tab : Str) (k1 k2 : Key) :
    getLines (transposeTab tab k1 k2) = (getLines tab).map (processLine k1 k2) ∧
    (∀ l : Str, ((words l).length < 2 ∨
        validChord ((words l).getD 0 []) = false ∨
        validChord ((words l).getD 1 []) = false) →
      processLine k1 k2 l = l) ∧
    transposeTab tab k1 k2 =
      ((getLines (transposeTab tab k1 k2)).map fun l => l ++ str "\n").flatten ∧
    (getLines (transposeTab tab k1 k2)).length = (getLines tab).length := by
  have hmap : getLines (transposeTab tab k1 k2)
      = (getLines tab).map (processLine k1 k2) := by
    unfold transposeTab
    rw [show ((getLines tab).map fun l => processLine k1 k2 l ++ str "\n")
        = (((getLines tab).map (processLine k1 k2)).map fun l => l ++ str "\n")
      from by rw [List.map_map]; rfl]
    apply getLines_flatten
    intro l hl
    simp only [List.mem_map] at hl
    obtain ⟨l0, hl0, rfl⟩ := hl
    exact processLine_no_nl k1 k2 (getLines_no_nl tab l0 hl0)
  refine ⟨hmap, ?_, ?_, by rw [hmap, List.length_map]⟩
  · intro l hbad
    have hcl : isChordLine l = false := by
      unfold isChordLine
      rcases hbad with hlen | h0 | h1
      · have hd : (words l).getD 1 [] = [] :=
          List.getD_eq_default _ _ (by omega)
        rw [hd, show validChord [] = false from by decide, Bool.and_false]
      · rw [h0, Bool.false_and]
      · rw [h1, Bool.and_false]
    unfold processLine
    rw [hcl]
    rfl
  · rw [hmap, List.map_map]
    rfl

/-- C7 witness: a one-token line passes through unmodified. -/
theorem c7_frame_witness :
    processLine (mkKey (str "a")) (mkKey (str "c")) (str "hello") = str "hello" :=
  (c7_frame (str "hello") (mkKey (str "a")) (mkKey (str "c"))).2.1 (str "hello")
    (Or.inl (by decide))

/-- C5, counterexample: "b#" is a valid note name and belongs to the
alternate dictionary, but `isAltNote` does not recognize it, so
`transposeNote` looks it up in the primary dictionary, falls back to
index 0, and returns a different note for the zero interval whichever
table flag is passed. -/
theorem c5_zero_interval_counterexample :
    validNote (str "b#") = true ∧
    altNotes.contains (str "b#") = true ∧
    isAltNote (str "b#") = false ∧
    transposeNote (str "b#") 0 true = str "g#" ∧
    transposeNote (str "b#") 0 false = str "ab" ∧
    str "g#" ≠ str "b#" ∧ str "ab" ≠ str "b#" :=
  ⟨by decide, by decide, by decide, by decide, by decide, by decide, by decide⟩

/-- C5, amended: the zero interval is the identity on the note names
whose table `isAltNote` identifies correctly: every name of the primary
dictionary with the primary table selected, and every one of the five
alternate spellings recognized by `isAltNote` with the alternate table
selected.  (The remaining valid names "b#" and "e#" are mapped through
the fallback index 0 and are not fixed.) -/
theorem c5_zero_interval_amended :
    (∀ n ∈ notes, transposeNote n 0 false = n) ∧
    (∀ n : Str, isAltNote n = true → transposeNote n 0 true = n) := by
  refine ⟨by decide, ?_⟩
  intro n h
  unfold isAltNote at h
  simp only [Bool.or_eq_true, beq_iff_eq] at h
  rcases h with ((((h | h) | h) | h) | h) <;> subst h <;> decide

/-- C5 witness: the amended statement applied to "a" (primary table) and
"g#" (alternate table). -/
theorem c5_zero_interval_amended_witness :
    transposeNote (str "a") 0 false = str "a" ∧
    transposeNote (str "g#") 0 true = str "g#" :=
  ⟨c5_zero_interval_amended.1 (str "a") (by decide),
   c5_zero_interval_amended.2 (str "g#") (by decide)⟩

/-- C6: for keys built from valid note names, the interval is in [0,12),
equals the difference of chromatic indices modulo 12, the two opposite
intervals sum to 0 modulo 12, and both are 0 exactly when the two keys
share the same chromatic index. -/
theorem c6_interval_properties (s1 s2 : Str)
    (h1 : validNote s1 = true) (h2 : validNote s2 = true) :
    0 ≤ getInterval (mkKey s1) (mkKey s2) ∧
    getInterval (mkKey s1) (mkKey s2) < 12 ∧
    getInterval (mkKey s1) (mkKey s2) =
      (((mkKey s2).id : Int) - ((mkKey s1).id : Int)) % 12 ∧
    (getInterval (mkKey s1) (mkKey s2) + getInterval (mkKey s2) (mkKey s1)) % 12 = 0 ∧
    ((getInterval (mkKey s1) (mkKey s2) = 0 ∧ getInterval (mkKey s2) (mkKey s1) = 0)
      ↔ (mkKey s1).id = (mkKey s2).id) := by
  have ha := mkKey_id_lt s1
  have hb := mkKey_id_lt s2
  unfold getInterval
  refine ⟨?_, ?_, ?_, ?_, ?_⟩ <;> split_ifs <;> omega

/-- C6 witness: the interval properties at the keys a and c. -/
theorem c6_interval_properties_witness :
    0 ≤ getInterval (mkKey (str "a")) (mkKey (str "c")) ∧
    getInterval (mkKey (str "a")) (mkKey (str "c")) < 12 ∧
    getInterval (mkKey (str "a")) (mkKey (str "c")) =
      (((mkKey (str "c")).id : Int) - ((mkKey (str "a")).id : Int)) % 12 ∧
    (getInterval (mkKey (str "a")) (mkKey (str "c")) +
      getInterval (mkKey (str "c")) (mkKey (str "a"))) % 12 = 0 ∧
    ((getInterval (mkKey (str "a")) (mkKey (str "c")) = 0 ∧
      getInterval (mkKey (str "c")) (mkKey (str "a")) = 0)
      ↔ (mkKey (str "a")).id = (mkKey (str "c")).id) :=
  c6_interval_properties (str "a") (str "c") (by decide) (by decide)

/-- C8: the grammar and lookup functions are total: the note index is
always in [0,12) with fallback 0 for absent notes, the root is never
longer than the word (so the suffix extractions are in bounds), and the
predicates are defined (boolean) on every string. -/
theorem c8_totality (s : Str) :
    getNoteIndex notes s < 12 ∧ getNoteIndex altNotes s < 12 ∧
    (notes.contains (formatNote s) = false → getNoteIndex notes s = 0) ∧
    (altNotes.contains (formatNote s) = false → getNoteIndex altNotes s = 0) ∧
    (getRoot s).length ≤ s.length ∧
    (validChord s = true ∨ validChord s = false) ∧
    (validNote s = true ∨ validNote s = false) ∧
    (validSlashChord s = true ∨ validSlashChord s = false) ∧
    (validChordQuality s = true ∨ validChordQuality s = false) :=
  ⟨getNoteIndex_lt (by decide) s, getNoteIndex_lt (by decide) s,
   getNoteIndex_absent, getNoteIndex_absent, getRoot_length_le s,
   boolTotal _, boolTotal _, boolTotal _, boolTotal _⟩

/-- C8 witness: totality at the unrecognized string "zz". -/
theorem c8_totality_witness :
    getNoteIndex notes (str "zz") = 0 ∧
    getNoteIndex altNotes (str "zz") = 0 ∧
    getNoteIndex notes (str "zz") < 12 :=
  ⟨(c8_totality (str "zz")).2.2.1 (by decide),
   (c8_totality (str "zz")).2.2.2.1 (by decide),
   (c8_totality (str "zz")).1⟩

/-- C9: the worked example of the spec: keys a and c have indices 1 and
4, the interval is 3, and "A" and "Am7" transpose to "C" and "Cm7". -/
theorem c9_worked_example :
    (mkKey (str "a")).id = 1 ∧ (mkKey (str "c")).id = 4 ∧
    getInterval (mkKey (str "a")) (mkKey (str "c")) = 3 ∧
    transposeChord (str "A") (mkKey (str "a")) (mkKey (str "c")) = str "C" ∧
    transposeChord (str "Am7") (mkKey (str "a")) (mkKey (str "c")) = str "Cm7" :=
  ⟨by decide, by decide, by decide, by decide, by decide⟩

/-- C10: the root is a prefix of the word, of length 1 or 2 for nonempty
words, and empty for the empty word, so the substring extractions
`word.substr(root.size())` in validChord and transposeChord are in
bounds. -/
theorem c10_root_bounds (w : Str) :
    isPre (getRoot w) w = true ∧
    (getRoot w).length ≤ w.length ∧
    (w ≠ [] → getRoot w ≠ [] ∧ ((getRoot w).length = 1 ∨ (getRoot w).length = 2)) ∧
    (w = [] → getRoot w = []) := by
  refine ⟨getRoot_isPre w, getRoot_length_le w, ?_, ?_⟩
  · intro hw
    have hl : 1 ≤ w.length := by
      cases w with
      | nil => exact absurd rfl hw
      | cons c cs => simp
    rcases getRoot_take w with h | h <;> rw [h]
    · refine ⟨?_, Or.inl ?_⟩
      · intro hnil
        have h0 : (w.take 1).length = 0 := by rw [hnil]; rfl
        rw [List.length_take] at h0
        omega
      · rw [List.length_take]
        omega
    · refine ⟨?_, ?_⟩
      · intro hnil
        have h0 : (w.take 2).length = 0 := by rw [hnil]; rfl
        rw [List.length_take] at h0
        omega
      · rw [List.length_take]
        omega
  · intro hw
    subst hw
    rfl

/-- C10 witness: the root bounds at the nonempty word "Ab". -/
theorem c10_root_bounds_witness :
    getRoot (str "Ab") ≠ [] ∧
    ((getRoot (str "Ab")).length = 1 ∨ (getRoot (str "Ab")).length = 2) :=
  (c10_root_bounds (str "Ab")).2.2.1 (by decide)

end TabTransposer
